import Mathlib

set_option maxHeartbeats 1000000

/-! A shallow embedding of `app.py`, a quiz content server with two pieces
of logic: the hierarchical content aggregation engine
(`get_all_questions_with_filters`, `get_single_question`,
`load_questions_from_file` and the directory walkers) and the progress
state merge engine (`save_state`). Definitions mirror the Python source;
theorems settle the specification's testable properties. -/

/-- JSON-like values as stored in chapter files and state documents.
Numbers are modelled as integers (every number the specification's
properties mention is integral); objects keep their fields as an
association list in insertion order, as Python dicts preserve insertion
order. -/
inductive JVal where
  | null
  | bool (b : Bool)
  | num (n : Int)
  | str (s : String)
  | arr (elems : List JVal)
  | obj (fields : List (String × JVal))

/-- Python truthiness `bool(v)` of a JSON value: `None`, `False`, `0`, `""`,
`[]` and `{}` are falsy, everything else is truthy. -/
def truthy : JVal → Bool
  | .null => false
  | .bool b => b
  | .num n => n != 0
  | .str s => s != ""
  | .arr xs => !xs.isEmpty
  | .obj fs => !fs.isEmpty

/-- The body of a JSON object (a question record or a state document):
fields in insertion order. Parsed JSON objects have pairwise distinct
keys; theorems assume that where it matters. -/
abbrev JObj := List (String × JVal)

/-- `d.get(k, default)` on a Python dict: the stored value when the key is
present — even a falsy one such as `0` or `None` — and the default
otherwise. -/
def dictGet (d : JObj) (k : String) (default : JVal) : JVal :=
  (d.lookup k).getD default

/-- Python `x or y`: `x` when truthy, else `y`. -/
def pyOr (v d : JVal) : JVal := if truthy v then v else d

/-- The content of one chapter file on disk. `ioError` covers an unreadable
file or a JSON parse failure (the `except` branch of
`load_questions_from_file`); `notArray v` a successful parse whose value
is not a list; `records qs` a parsed array of question records (the data
model's records are mappings). -/
inductive ChapterData where
  | ioError
  | notArray (v : JVal)
  | records (qs : List JObj)

/-- `load_questions_from_file`: the parsed list when the file parses to an
array (`questions if isinstance(questions, list) else []`), and `[]` on
any read or parse failure. -/
def load_questions_from_file : ChapterData → List JObj
  | .ioError => []
  | .notArray _ => []
  | .records qs => qs

/-- A directory: entries in arbitrary on-disk order, each pairing a name
with the contents reachable under that name (`os.listdir` gives the
names in unspecified order; the code sorts them and then opens each name
it listed). -/
abbrev Dir (α : Type) := List (String × α)

/-- The `subjects` root: subject directories, each holding division
directories, each holding chapter files. -/
abbrev ContentRoot := Dir (Dir (Dir ChapterData))

/-- Code-point lexicographic comparison of character lists — the order
Python's string `<=` uses. (Defined recursively so it reduces
definitionally; it agrees with the standard order on `String`, see
`strLe_iff_le`.) -/
def charsLe : List Char → List Char → Bool
  | [], _ => true
  | _ :: _, [] => false
  | c :: cs, d :: ds => if c = d then charsLe cs ds else decide (c < d)

/-- Python's `a <= b` on strings. -/
def strLe (a b : String) : Bool := charsLe a.data b.data

/-- The first list is an initial run of the second. -/
def charsInit : List Char → List Char → Bool
  | [], _ => true
  | _ :: _, [] => false
  | c :: cs, d :: ds => c = d && charsInit cs ds

/-- Python's `s.endswith(post)`, via reversed character lists. -/
def strEndsWith (s post : String) : Bool :=
  charsInit post.data.reverse s.data.reverse

/-- Order on directory entries by name, the order `sorted(...)` uses. -/
def keyLE {α : Type} (a b : String × α) : Prop := strLe a.1 b.1 = true

instance {α : Type} : DecidableRel (@keyLE α) :=
  fun a b => inferInstanceAs (Decidable (strLe a.1 b.1 = true))

/-- `sorted(os.listdir(path))` with each name paired with its contents:
the directory's entries in name order. -/
def sortDir {α : Type} (d : Dir α) : Dir α := d.insertionSort keyLE

/-- `get_json_files`: the entries whose name ends in `.json`, sorted. -/
def jsonFiles (d : Dir ChapterData) : Dir ChapterData :=
  sortDir (d.filter (fun e => strEndsWith e.1 ".json"))

/-- Decimal digits of `n`, fuel-driven so it unfolds definitionally; models
the decimal rendering of a non-negative integer inside the f-string that
builds composite identifiers. -/
def natCharsAux : Nat → Nat → List Char
  | 0, _ => []
  | fuel + 1, n =>
      if n < 10 then [Nat.digitChar n]
      else natCharsAux fuel (n / 10) ++ [Nat.digitChar (n % 10)]

/-- Decimal string of a natural number. -/
def natToString (n : Nat) : String := ⟨natCharsAux (n + 1) n⟩

/-- The composite identifier `f"{subject}/{division}/{chapter}:{index}"`. -/
def compositeId (s d c : String) (i : Nat) : String :=
  s ++ "/" ++ d ++ "/" ++ c ++ ":" ++ natToString i

/-- The `source` sub-object injected into an enriched record. -/
def sourceObj (s d c : String) (i : Nat) : JVal :=
  .obj [("subject", .str s), ("division", .str d),
        ("chapter", .str c), ("index", .num i)]

/-- `base.copy()` followed by `.update(upd)` on Python dicts, on ordered
association lists: keys of `base` keep their position, with the value
overridden by `upd`'s where `upd` has the key; keys present only in
`upd` are appended in `upd`'s order. -/
def dictUpdate (base upd : JObj) : JObj :=
  base.map (fun e => (e.1, (upd.lookup e.1).getD e.2))
    ++ upd.filter (fun e => (base.lookup e.1).isNone)

/-- `{**question, 'id': ..., 'source': ...}`: the record's own fields with
`id` and `source` injected (overriding same-named fields in place if the
record already has them). -/
def question_with_meta (s d c : String) (i : Nat) (q : JObj) : JObj :=
  dictUpdate q
    [("id", .str (compositeId s d c i)), ("source", sourceObj s d c i)]

/-- `if filter and name != filter: continue`: an entry is kept when the
filter is falsy (absent, or the empty string — a falsy Python string) or
is an exact match. -/
def passesFilter (filt : Option String) (name : String) : Bool :=
  match filt with
  | none => true
  | some f => f == "" || name == f

/-- `question.get('content')` is truthy: the record survives aggregation's
content-presence check. -/
def hasContent (q : JObj) : Bool := truthy ((q.lookup "content").getD .null)

/-- One chapter file's contribution to the aggregate:
`for index, question in enumerate(questions)`, keeping the records whose
`content` is truthy, each enriched with id and source. -/
def chapterRecords (s d c : String) (qs : List JObj) : List JObj :=
  qs.enum.filterMap (fun iq =>
    if hasContent iq.2 then some (question_with_meta s d c iq.1 iq.2) else none)

/-- `get_all_questions_with_filters`: walk subjects, divisions and chapter
files in sorted name order, apply the optional exact-match filters at
each level, and concatenate the enriched content-bearing records in
traversal order. -/
def get_all_questions_with_filters (root : ContentRoot)
    (subject_filter division_filter chapter_filter : Option String) :
    List JObj :=
  (sortDir root).flatMap (fun se =>
    if passesFilter subject_filter se.1 then
      (sortDir se.2).flatMap (fun de =>
        if passesFilter division_filter de.1 then
          (jsonFiles de.2).flatMap (fun ce =>
            if passesFilter chapter_filter ce.1 then
              chapterRecords se.1 de.1 ce.1 (load_questions_from_file ce.2)
            else [])
        else [])
    else [])

/-- `os.path.join(SUBJECTS_DIR, subject, division, chapter)` resolved in
the modelled tree: the chapter file's content when the full path exists. -/
def findChapter (root : ContentRoot) (s d c : String) : Option ChapterData :=
  (root.lookup s).bind (fun divs => (divs.lookup d).bind (fun chs => chs.lookup c))

/-- `get_single_question`: 404 (`none`) when the chapter file does not
exist or `index >= len(questions)` on the raw loaded list; otherwise the
record at `index` enriched with id and source — no content-presence
filtering on this path. -/
def get_single_question (root : ContentRoot) (s d c : String) (i : Nat) :
    Option JObj :=
  match findChapter root s d c with
  | none => none
  | some cd =>
      let questions := load_questions_from_file cd
      if h : i < questions.length then
        some (question_with_meta s d c i questions[i])
      else none

/-- What reading `quiz-state.json` can yield: no file, a file whose read or
parse raises, or a parsed JSON value. -/
inductive StateFile where
  | missing
  | unreadable
  | parsed (v : JVal)

/-- `existing` after the guarded load in `save_state`: `{}` when the file
is missing, `{}` when reading or parsing raises (`except: existing = {}`),
and `json.load(f) or {}` otherwise — so a falsy parsed value (null,
false, 0, "", [], {}) also degrades to `{}`, while a truthy parsed value
is kept as-is, mapping or not. -/
def loadExisting : StateFile → JVal
  | .missing => .obj []
  | .unreadable => .obj []
  | .parsed v => if truthy v then v else .obj []

/-- Outcome of `save_state`: 400 for a non-mapping payload, 500 when the
handler raises (caught by the outer `except`), 200 with the merged
document that was written back. -/
inductive MergeResult where
  | badRequest
  | serverError
  | ok (merged : JObj)

/-- The fields of a mapping; `none` models the `AttributeError` or
`TypeError` raised when a dict operation hits a non-mapping. -/
def asObj : JVal → Option JObj
  | .obj fs => some fs
  | _ => none

/-- The elements of an array of strings, `none` otherwise. -/
def strElems : List JVal → Option (List String)
  | [] => some []
  | .str s :: xs => (strElems xs).map (fun l => s :: l)
  | _ => none

/-- A `markedForReview` value as a list of identifier strings, ready for
`set(...)`: defined for arrays of strings (the field's type in the data
model — a set of composite identifiers); `none` models the error raised
when hashing or sorting other truthy values. -/
def asIdArray : JVal → Option (List String)
  | .arr xs => strElems xs
  | _ => none

/-- `sorted(list(set(l)))`: the distinct elements of `l` in increasing
string order. -/
def sortedSet (l : List String) : List String :=
  l.dedup.insertionSort (fun a b => strLe a b = true)

/-- The five recognized state fields. -/
def fixedFields : List String :=
  ["attemptedQuestions", "markedForReview", "currentFilter",
   "currentQuestionIndex", "lastUpdated"]

/-- `save_state` (POST `/api/state`): reject a non-mapping payload with
400; load the prior document (degrading to `{}` as in `loadExisting`);
then merge field by field — dict overlay for `attemptedQuestions`,
sorted set union for `markedForReview`, present-wins lookups with
defaults for `currentFilter` / `currentQuestionIndex` / `lastUpdated`,
pass-through of the payload's other fields, then of the prior document's
untouched fields — and write the merged document back. A dict operation
on a truthy non-mapping (for instance a prior state that parses as a
non-empty array) raises, which the outer `except` turns into a 500.
`now` stands for `datetime.utcnow().isoformat()` at merge time. -/
def save_state (file : StateFile) (payload : JVal) (now : String) :
    MergeResult :=
  match payload with
  | .obj dataF =>
    match asObj (loadExisting file) with
    | none => .serverError
    | some exF =>
      match asObj (pyOr (dictGet exF "attemptedQuestions" (.obj [])) (.obj [])),
            asObj (pyOr (dictGet dataF "attemptedQuestions" (.obj [])) (.obj [])) with
      | some exAtt, some inAtt =>
        match asIdArray (pyOr (dictGet exF "markedForReview" (.arr [])) (.arr [])),
              asIdArray (pyOr (dictGet dataF "markedForReview" (.arr [])) (.arr [])) with
        | some exMfr, some inMfr =>
          let merged : JObj :=
            [("attemptedQuestions", .obj (dictUpdate exAtt inAtt)),
             ("markedForReview", .arr ((sortedSet (exMfr ++ inMfr)).map .str)),
             ("currentFilter",
               dictGet dataF "currentFilter" (dictGet exF "currentFilter" (.obj []))),
             ("currentQuestionIndex",
               dictGet dataF "currentQuestionIndex"
                 (dictGet exF "currentQuestionIndex" (.num 0))),
             ("lastUpdated",
               dictGet dataF "lastUpdated" (dictGet exF "lastUpdated" (.str now)))]
            ++ dataF.filter (fun e => !fixedFields.contains e.1)
          .ok (merged ++ exF.filter (fun e => (merged.lookup e.1).isNone))
        | _, _ => .serverError
      | _, _ => .serverError
  | _ => .badRequest

/-! ### The model's string order agrees with the standard one -/

theorem charsLe_iff_le (x y : List Char) : charsLe x y = true ↔ x ≤ y := by
  have lexIff : ∀ (u v : List Char), u < v ↔ List.Lex (· < ·) u v := fun u v => Iff.rfl
  induction x generalizing y with
  | nil =>
      constructor
      · intro _; exact List.nil_le
      · intro _; rfl
  | cons c cs ih =>
      cases y with
      | nil =>
          constructor
          · intro h; exact absurd h (by simp [charsLe])
          · intro h
            exact absurd (lt_of_lt_of_le (List.nil_lt_cons c cs) h) (lt_irrefl _)
      | cons d ds =>
          by_cases hcd : c = d
          · subst hcd
            rw [show charsLe (c :: cs) (c :: ds) = charsLe cs ds by simp [charsLe]]
            refine (ih ds).trans ?_
            rw [← not_lt, ← not_lt, lexIff, lexIff, List.Lex.cons_iff]
          · rw [show charsLe (c :: cs) (d :: ds) = decide (c < d) by simp [charsLe, hcd]]
            rw [decide_eq_true_iff, ← not_lt, lexIff]
            constructor
            · intro h hlex
              cases hlex with
              | rel h2 => exact absurd h2 (lt_asymm h)
              | cons h2 => exact hcd rfl
            · intro h
              rcases lt_trichotomy c d with h1 | h1 | h1
              · exact h1
              · exact absurd h1 hcd
              · exact absurd (List.Lex.rel h1) h

theorem strLe_iff_le (a b : String) : strLe a b = true ↔ a ≤ b := by
  rw [String.le_iff_toList_le]
  exact charsLe_iff_le a.data b.data

theorem strLe_total (a b : String) : strLe a b = true ∨ strLe b a = true := by
  rw [strLe_iff_le, strLe_iff_le]
  exact le_total a b

theorem strLe_trans {a b c : String} (h1 : strLe a b = true) (h2 : strLe b c = true) :
    strLe a c = true := by
  rw [strLe_iff_le] at h1 h2 ⊢
  exact le_trans h1 h2

theorem keyLE_total {α : Type} (a b : String × α) : keyLE a b ∨ keyLE b a :=
  strLe_total a.1 b.1

theorem keyLE_trans {α : Type} {a b c : String × α} (h1 : keyLE a b)
    (h2 : keyLE b c) : keyLE a c := strLe_trans h1 h2

/-! ### Association-list lemmas (Python dict operations) -/

theorem lookup_cons {β : Type} (k0 k : String) (v : β) (l : List (String × β)) :
    ((k0, v) :: l).lookup k = if k = k0 then some v else l.lookup k := by
  by_cases h : k = k0
  · subst h; simp [List.lookup]
  · have hb : (k == k0) = false := beq_false_of_ne h
    simp [List.lookup, hb, h]

theorem lookup_append {β : Type} (k : String) (l1 l2 : List (String × β)) :
    (l1 ++ l2).lookup k = (l1.lookup k).or (l2.lookup k) := by
  induction l1 with
  | nil => simp [List.lookup]
  | cons e t ih =>
      rcases e with ⟨k0, v⟩
      by_cases h : k = k0 <;> simp [lookup_cons, h, ih]

theorem lookup_map_value {β γ : Type} (g : String → β → γ) (k : String)
    (l : List (String × β)) :
    (l.map (fun e => (e.1, g e.1 e.2))).lookup k = (l.lookup k).map (g k) := by
  induction l with
  | nil => simp [List.lookup]
  | cons e t ih =>
      rcases e with ⟨k0, v⟩
      by_cases h : k = k0 <;> simp [lookup_cons, h, ih]

theorem lookup_filter_key {β : Type} (p : String → Bool) (k : String)
    (l : List (String × β)) :
    (l.filter (fun e => p e.1)).lookup k = if p k then l.lookup k else none := by
  induction l with
  | nil => simp [List.lookup]
  | cons e t ih =>
      rcases e with ⟨k0, v⟩
      by_cases h : k = k0
      · subst h
        by_cases hp : p k <;> simp [List.filter, hp, lookup_cons, ih]
      · by_cases hp : p k0 <;> simp [List.filter, hp, lookup_cons, h, ih]

theorem lookup_isSome_of_mem {β : Type} {k : String} {v : β}
    {l : List (String × β)} (h : (k, v) ∈ l) : (l.lookup k).isSome := by
  induction l with
  | nil => simp at h
  | cons e t ih =>
      rcases e with ⟨k0, v0⟩
      by_cases hk : k = k0
      · simp [lookup_cons, hk]
      · rcases List.mem_cons.mp h with h0 | h0
        · exact absurd (congrArg Prod.fst h0) hk
        · simp [lookup_cons, hk, ih h0]

theorem lookup_eq_none_iff {β : Type} {k : String} {l : List (String × β)} :
    l.lookup k = none ↔ k ∉ l.map Prod.fst := by
  induction l with
  | nil => simp [List.lookup]
  | cons e t ih =>
      rcases e with ⟨k0, v0⟩
      by_cases hk : k = k0 <;> simp [lookup_cons, hk, ih]

theorem lookup_eq_of_mem_nodup {β : Type} {k : String} {v : β}
    {l : List (String × β)} (nd : (l.map Prod.fst).Nodup) (h : (k, v) ∈ l) :
    l.lookup k = some v := by
  induction l with
  | nil => simp at h
  | cons e t ih =>
      rcases e with ⟨k0, v0⟩
      rcases List.mem_cons.mp h with h0 | h0
      · rcases Prod.mk.injEq .. ▸ h0 with ⟨hk, hv⟩
        simp [lookup_cons, hk, hv]
      · simp only [List.map_cons, List.nodup_cons] at nd
        have hk : k ≠ k0 := by
          rintro rfl
          exact nd.1 (by simpa using List.mem_map_of_mem Prod.fst h0)
        simp [lookup_cons, hk, ih nd.2 h0]

/-- The key law of the dict overlay: a lookup in `base.copy(); .update(upd)`
sees `upd`'s value when `upd` has the key and `base`'s value otherwise. -/
theorem lookup_dictUpdate (base upd : JObj) (k : String) :
    (dictUpdate base upd).lookup k = (upd.lookup k).or (base.lookup k) := by
  unfold dictUpdate
  rw [lookup_append, lookup_map_value (fun k0 v => (upd.lookup k0).getD v),
    lookup_filter_key (fun k0 => (base.lookup k0).isNone)]
  cases hb : base.lookup k <;> cases hu : upd.lookup k <;> simp [hb, hu]

/-! ### The merge engine's field extractions -/

/-- `existing.get('attemptedQuestions', {}) or {}` as a mapping (the branch
the code takes when that expression is a dict; `[]` is a placeholder on
the error branch, which `wellTypedState` rules out). -/
def attFieldOf (f : JObj) : JObj :=
  (asObj (pyOr (dictGet f "attemptedQuestions" (.obj [])) (.obj []))).getD []

/-- `set(f.get('markedForReview', []) or [])`'s elements, for a field that
is an array of identifier strings. -/
def mfrFieldOf (f : JObj) : List String :=
  (asIdArray (pyOr (dictGet f "markedForReview" (.arr [])) (.arr []))).getD []

/-- The document's `attemptedQuestions` and `markedForReview` fields have
the data model's types (mapping resp. array of identifier strings), or
are absent or falsy: exactly the condition under which the merge's dict
and set operations run without raising. -/
def wellTypedState (f : JObj) : Bool :=
  (asObj (pyOr (dictGet f "attemptedQuestions" (.obj [])) (.obj []))).isSome &&
  (asIdArray (pyOr (dictGet f "markedForReview" (.arr [])) (.arr []))).isSome

/-- The merged document before the prior state's untouched fields are
appended: the five recognized fields followed by the payload's
pass-through fields. -/
def mergedHead (exF dataF : JObj) (now : String) : JObj :=
  [("attemptedQuestions", .obj (dictUpdate (attFieldOf exF) (attFieldOf dataF))),
   ("markedForReview", .arr ((sortedSet (mfrFieldOf exF ++ mfrFieldOf dataF)).map .str)),
   ("currentFilter",
     dictGet dataF "currentFilter" (dictGet exF "currentFilter" (.obj []))),
   ("currentQuestionIndex",
     dictGet dataF "currentQuestionIndex" (dictGet exF "currentQuestionIndex" (.num 0))),
   ("lastUpdated", dictGet dataF "lastUpdated" (dictGet exF "lastUpdated" (.str now)))]
  ++ dataF.filter (fun e => !fixedFields.contains e.1)

/-- The merged document `save_state` writes back, given the loaded prior
fields and the payload fields. -/
def mergedDoc (exF dataF : JObj) (now : String) : JObj :=
  mergedHead exF dataF now
    ++ exF.filter (fun e => ((mergedHead exF dataF now).lookup e.1).isNone)

theorem asObj_loadExisting_obj (exF : JObj) :
    asObj (loadExisting (.parsed (.obj exF))) = some exF := by
  cases exF <;> simp [loadExisting, truthy, asObj]

/-- A merge on a mapping payload with well-typed fields, over a prior state
that loads as a mapping, succeeds and writes `mergedDoc`. -/
theorem save_state_eq_merged (file : StateFile) (dataF exF : JObj) (now : String)
    (hload : asObj (loadExisting file) = some exF)
    (hex : wellTypedState exF = true) (hdat : wellTypedState dataF = true) :
    save_state file (.obj dataF) now = .ok (mergedDoc exF dataF now) := by
  unfold wellTypedState at hex hdat
  rw [Bool.and_eq_true] at hex hdat
  obtain ⟨exA, hA⟩ := Option.isSome_iff_exists.mp hex.1
  obtain ⟨inA, hB⟩ := Option.isSome_iff_exists.mp hdat.1
  obtain ⟨exM, hC⟩ := Option.isSome_iff_exists.mp hex.2
  obtain ⟨inM, hD⟩ := Option.isSome_iff_exists.mp hdat.2
  unfold save_state
  dsimp only
  rw [hload]
  dsimp only
  rw [hA, hB, hC, hD]
  unfold mergedDoc mergedHead attFieldOf mfrFieldOf
  rw [hA, hB, hC, hD]
  rfl

/-! ### Claim C3 -/

/-- C3: `get_single_question` returns NotFound (`none`) exactly when the
chapter file does not exist or the index is at or past the length of the
raw record list; at any valid index it returns the record enriched with
id and source, with no content-presence filtering — a record with a
missing or falsy `content` field is returned all the same. -/
theorem get_single_question_spec (root : ContentRoot) (s d c : String) (i : Nat) :
    (get_single_question root s d c i = none ↔
      findChapter root s d c = none ∨
      ∃ cd, findChapter root s d c = some cd ∧
        (load_questions_from_file cd).length ≤ i) ∧
    (∀ cd, findChapter root s d c = some cd →
      ∀ h : i < (load_questions_from_file cd).length,
        get_single_question root s d c i =
          some (question_with_meta s d c i (load_questions_from_file cd)[i])) := by
  unfold get_single_question
  cases hf : findChapter root s d c with
  | none => simp
  | some cd =>
      constructor
      · by_cases h : i < (load_questions_from_file cd).length <;> simp [h]
        omega
      · intro cd' hcd' h
        obtain rfl : cd' = cd := by exact (Option.some.injEq _ _ ▸ hcd').symm
        simp [h]

/-- A three-level hierarchy with one chapter file of two records, the first
of which has no `content` field. -/
def demoRoot : ContentRoot :=
  [("s", [("d", [("c.json", .records [[("x", .num 1)], [("content", .str "hi")]])])])]

theorem get_single_question_spec_witness :
    get_single_question demoRoot "s" "d" "c.json" 5 = none ∧
    get_single_question demoRoot "s" "d" "c.json" 0 =
      some (question_with_meta "s" "d" "c.json" 0 [("x", JVal.num 1)]) := by
  constructor
  · exact (get_single_question_spec demoRoot "s" "d" "c.json" 5).1.mpr
      (Or.inr ⟨.records [[("x", .num 1)], [("content", .str "hi")]], rfl, by decide⟩)
  · exact (get_single_question_spec demoRoot "s" "d" "c.json" 0).2
      (.records [[("x", .num 1)], [("content", .str "hi")]]) rfl (by decide)

/-! ### Claim C4 -/

/-- C4, counterexample: a persisted state file that parses as the non-empty
array `[1]` is not treated as an empty prior state — the merge call
fails with a server error (`existing.get` raises `AttributeError` on the
list, caught only by the handler's outer `except`, which returns 500),
even though the incoming payload is a perfectly fine mapping. -/
theorem save_state_array_prior_fails :
    save_state (.parsed (.arr [.num 1])) (.obj []) "T" = .serverError := rfl

/-- C4 (amended): a prior state file that is missing, unreadable, or parses
as a falsy value (null, false, 0, "", [] or {}) is treated as an empty
prior state — the merge behaves exactly as if no file existed — and for a
mapping payload with well-typed fields the merge succeeds, the incoming
payload becoming the full result modulo defaults. (A prior state parsing
as a truthy non-mapping instead fails the call with a server error.) -/
theorem save_state_degraded_prior_treated_empty (sf : StateFile) (payload : JVal)
    (now : String)
    (hdeg : sf = .missing ∨ sf = .unreadable ∨
      ∃ v, sf = .parsed v ∧ truthy v = false) :
    save_state sf payload now = save_state .missing payload now ∧
    (∀ dataF, payload = .obj dataF → wellTypedState dataF = true →
      save_state sf payload now = .ok (mergedDoc [] dataF now)) := by
  have h : loadExisting sf = .obj [] := by
    rcases hdeg with rfl | rfl | ⟨v, rfl, hv⟩ <;> simp [loadExisting, *]
  constructor
  · unfold save_state
    rw [h]
    rfl
  · rintro dataF rfl hdat
    exact save_state_eq_merged sf dataF [] now (by rw [h]; rfl) (by decide) hdat

theorem save_state_degraded_prior_treated_empty_witness :
    save_state (.parsed (.str "")) (.obj [("currentQuestionIndex", .num 3)]) "T" =
      save_state .missing (.obj [("currentQuestionIndex", .num 3)]) "T" ∧
    save_state (.parsed (.str "")) (.obj [("currentQuestionIndex", .num 3)]) "T" =
      .ok (mergedDoc [] [("currentQuestionIndex", .num 3)] "T") := by
  have h := save_state_degraded_prior_treated_empty (.parsed (.str ""))
    (.obj [("currentQuestionIndex", .num 3)]) "T"
    (Or.inr (Or.inr ⟨.str "", rfl, rfl⟩))
  exact ⟨h.1, h.2 [("currentQuestionIndex", .num 3)] rfl (by decide)⟩

/-! ### sortedSet and mergedDoc lemmas -/

theorem mem_sortedSet (x : String) (l : List String) : x ∈ sortedSet l ↔ x ∈ l := by
  unfold sortedSet
  rw [(List.perm_insertionSort _ _).mem_iff, List.mem_dedup]

theorem sorted_sortedSet (l : List String) : List.Sorted (· ≤ ·) (sortedSet l) := by
  haveI : IsTotal String (fun a b => strLe a b = true) := ⟨strLe_total⟩
  haveI : IsTrans String (fun a b => strLe a b = true) := ⟨fun _ _ _ => strLe_trans⟩
  exact (List.sorted_insertionSort (fun a b => strLe a b = true) l.dedup).imp
    (fun hab => (strLe_iff_le _ _).mp hab)

theorem nodup_sortedSet (l : List String) : (sortedSet l).Nodup :=
  ((List.perm_insertionSort _ _).nodup_iff).mpr (List.nodup_dedup l)

/-- The five recognized fields sit at the head of the merged document, with
the values the merge computed for them. -/
theorem mergedDoc_lookup_fixed (exF dataF : JObj) (now : String) :
    (mergedDoc exF dataF now).lookup "attemptedQuestions" =
      some (.obj (dictUpdate (attFieldOf exF) (attFieldOf dataF))) ∧
    (mergedDoc exF dataF now).lookup "markedForReview" =
      some (.arr ((sortedSet (mfrFieldOf exF ++ mfrFieldOf dataF)).map .str)) ∧
    (mergedDoc exF dataF now).lookup "currentFilter" =
      some (dictGet dataF "currentFilter" (dictGet exF "currentFilter" (.obj []))) ∧
    (mergedDoc exF dataF now).lookup "currentQuestionIndex" =
      some (dictGet dataF "currentQuestionIndex"
        (dictGet exF "currentQuestionIndex" (.num 0))) ∧
    (mergedDoc exF dataF now).lookup "lastUpdated" =
      some (dictGet dataF "lastUpdated" (dictGet exF "lastUpdated" (.str now))) := by
  refine ⟨?_, ?_, ?_, ?_, ?_⟩ <;> simp [mergedDoc, mergedHead, lookup_append, lookup_cons]

/-- A successful merge can only have come from a mapping payload and a
mapping-loaded prior state with well-typed fields, and the written
document is `mergedDoc`. -/
theorem save_state_ok_inv (file : StateFile) (payload : JVal) (now : String)
    (M : JObj) (h : save_state file payload now = .ok M) :
    ∃ dataF exF, payload = .obj dataF ∧ asObj (loadExisting file) = some exF ∧
      wellTypedState exF = true ∧ wellTypedState dataF = true ∧
      M = mergedDoc exF dataF now := by
  unfold save_state at h
  cases payload with
  | obj dataF =>
      refine ⟨dataF, ?_⟩
      dsimp only at h
      cases hE : asObj (loadExisting file) with
      | none => rw [hE] at h; exact absurd h (by simp)
      | some exF =>
          rw [hE] at h
          dsimp only at h
          refine ⟨exF, rfl, rfl, ?_⟩
          cases hA : asObj (pyOr (dictGet exF "attemptedQuestions" (.obj [])) (.obj [])) with
          | none => rw [hA] at h; exact absurd h (by simp)
          | some exAtt =>
          cases hB : asObj (pyOr (dictGet dataF "attemptedQuestions" (.obj [])) (.obj [])) with
          | none => rw [hA, hB] at h; exact absurd h (by simp)
          | some inAtt =>
          cases hC : asIdArray (pyOr (dictGet exF "markedForReview" (.arr [])) (.arr [])) with
          | none => rw [hA, hB, hC] at h; exact absurd h (by simp)
          | some exMfr =>
          cases hD : asIdArray (pyOr (dictGet dataF "markedForReview" (.arr [])) (.arr [])) with
          | none => rw [hA, hB, hC, hD] at h; exact absurd h (by simp)
          | some inMfr =>
              rw [hA, hB, hC, hD] at h
              dsimp only at h
              refine ⟨by simp [wellTypedState, hA, hC], by simp [wellTypedState, hB, hD], ?_⟩
              have hM := (MergeResult.ok.injEq _ _).mp h.symm
              rw [hM]
              unfold mergedDoc mergedHead attFieldOf mfrFieldOf
              rw [hA, hB, hC, hD]
              rfl
  | null => exact absurd h (by simp)
  | bool b => exact absurd h (by simp)
  | num n => exact absurd h (by simp)
  | str s => exact absurd h (by simp)
  | arr xs => exact absurd h (by simp)

theorem attFieldOf_of_absent {f : JObj} (h : f.lookup "attemptedQuestions" = none) :
    attFieldOf f = [] := by
  simp [attFieldOf, dictGet, h, pyOr, truthy, asObj]

theorem mfrFieldOf_of_absent {f : JObj} (h : f.lookup "markedForReview" = none) :
    mfrFieldOf f = [] := by
  simp [mfrFieldOf, dictGet, h, pyOr, truthy, asIdArray, strElems]

/-! ### Claim C2 -/

/-- C2: merging over an existing state produces an `attemptedQuestions`
overlay in which every key lookup sees the incoming value when incoming
has the key and the existing value otherwise, and a `markedForReview`
that holds exactly the union of the two sides' identifiers, serialized
sorted and duplicate-free. -/
theorem merge_union_laws (exF dataF : JObj) (now : String)
    (hex : wellTypedState exF = true) (hdat : wellTypedState dataF = true) :
    ∃ M, save_state (.parsed (.obj exF)) (.obj dataF) now = .ok M ∧
      (∃ att, M.lookup "attemptedQuestions" = some (.obj att) ∧
        ∀ k, att.lookup k =
          ((attFieldOf dataF).lookup k).or ((attFieldOf exF).lookup k)) ∧
      (∃ mfr, M.lookup "markedForReview" = some (.arr (mfr.map .str)) ∧
        (∀ x, x ∈ mfr ↔ x ∈ mfrFieldOf exF ∨ x ∈ mfrFieldOf dataF) ∧
        List.Sorted (· ≤ ·) mfr ∧ mfr.Nodup) := by
  refine ⟨mergedDoc exF dataF now,
    save_state_eq_merged _ _ _ _ (asObj_loadExisting_obj exF) hex hdat, ?_, ?_⟩
  · exact ⟨_, (mergedDoc_lookup_fixed exF dataF now).1,
      fun k => lookup_dictUpdate _ _ k⟩
  · refine ⟨sortedSet (mfrFieldOf exF ++ mfrFieldOf dataF),
      (mergedDoc_lookup_fixed exF dataF now).2.1, ?_,
      sorted_sortedSet _, nodup_sortedSet _⟩
    intro x
    rw [mem_sortedSet, List.mem_append]

/-- The specification's union-law example: existing state. -/
def c2Existing : JObj :=
  [("attemptedQuestions", .obj [("a", .num 1)]), ("markedForReview", .arr [.str "x"])]

/-- The specification's union-law example: incoming state. -/
def c2Incoming : JObj :=
  [("attemptedQuestions", .obj [("b", .num 2)]), ("markedForReview", .arr [.str "y"])]

theorem merge_union_laws_witness :
    wellTypedState c2Existing = true ∧ wellTypedState c2Incoming = true ∧
    (∃ M, save_state (.parsed (.obj c2Existing)) (.obj c2Incoming) "T" = .ok M ∧
      (∃ att, M.lookup "attemptedQuestions" = some (.obj att) ∧
        ∀ k, att.lookup k =
          ((attFieldOf c2Incoming).lookup k).or ((attFieldOf c2Existing).lookup k)) ∧
      (∃ mfr, M.lookup "markedForReview" = some (.arr (mfr.map .str)) ∧
        (∀ x, x ∈ mfr ↔ x ∈ mfrFieldOf c2Existing ∨ x ∈ mfrFieldOf c2Incoming) ∧
        List.Sorted (· ≤ ·) mfr ∧ mfr.Nodup)) :=
  ⟨by decide, by decide,
    merge_union_laws c2Existing c2Incoming "T" (by decide) (by decide)⟩

/-! ### Claim C8 -/

/-- C8: for `currentFilter` and `currentQuestionIndex` the merge takes the
incoming value whenever the payload provides the field at all — presence
decides, so a falsy incoming value such as `0` wins — else the existing
value, else the component default (`{}` resp. `0`). -/
theorem merge_scalar_override (exF dataF : JObj) (now : String)
    (hex : wellTypedState exF = true) (hdat : wellTypedState dataF = true) :
    ∀ k d0,
      (k, d0) ∈ [("currentFilter", JVal.obj []), ("currentQuestionIndex", JVal.num 0)] →
      ∃ M, save_state (.parsed (.obj exF)) (.obj dataF) now = .ok M ∧
        ((dataF.lookup k).isSome → M.lookup k = dataF.lookup k) ∧
        (dataF.lookup k = none → (exF.lookup k).isSome → M.lookup k = exF.lookup k) ∧
        (dataF.lookup k = none → exF.lookup k = none → M.lookup k = some d0) := by
  intro k d0 hk
  refine ⟨mergedDoc exF dataF now,
    save_state_eq_merged _ _ _ _ (asObj_loadExisting_obj exF) hex hdat, ?_⟩
  have hcf := (mergedDoc_lookup_fixed exF dataF now).2.2.1
  have hqi := (mergedDoc_lookup_fixed exF dataF now).2.2.2.1
  rcases List.mem_cons.mp hk with h0 | h0
  · obtain ⟨rfl, rfl⟩ := Prod.mk.injEq .. ▸ h0
    refine ⟨?_, ?_, ?_⟩ <;> intro h1
    · obtain ⟨v, hv⟩ := Option.isSome_iff_exists.mp h1
      rw [hcf]; simp [dictGet, hv]
    · intro h2
      obtain ⟨v, hv⟩ := Option.isSome_iff_exists.mp h2
      rw [hcf]; simp [dictGet, h1, hv]
    · intro h2
      rw [hcf]; simp [dictGet, h1, h2]
  · rcases List.mem_cons.mp h0 with h1 | h1
    · obtain ⟨rfl, rfl⟩ := Prod.mk.injEq .. ▸ h1
      refine ⟨?_, ?_, ?_⟩ <;> intro h1
      · obtain ⟨v, hv⟩ := Option.isSome_iff_exists.mp h1
        rw [hqi]; simp [dictGet, hv]
      · intro h2
        obtain ⟨v, hv⟩ := Option.isSome_iff_exists.mp h2
        rw [hqi]; simp [dictGet, h1, hv]
      · intro h2
        rw [hqi]; simp [dictGet, h1, h2]
    · simp at h1

theorem merge_scalar_override_witness :
    wellTypedState [("currentQuestionIndex", JVal.num 5)] = true ∧
    wellTypedState [("currentQuestionIndex", JVal.num 0)] = true ∧
    (∃ M, save_state (.parsed (.obj [("currentQuestionIndex", JVal.num 5)]))
        (.obj [("currentQuestionIndex", JVal.num 0)]) "T" = .ok M ∧
      ((([("currentQuestionIndex", JVal.num 0)] : JObj).lookup "currentQuestionIndex").isSome →
        M.lookup "currentQuestionIndex" =
          ([("currentQuestionIndex", JVal.num 0)] : JObj).lookup "currentQuestionIndex")) :=
  ⟨by decide, by decide,
    (merge_scalar_override [("currentQuestionIndex", JVal.num 5)]
        [("currentQuestionIndex", JVal.num 0)] "T" (by decide) (by decide)
        "currentQuestionIndex" (.num 0)
        (List.mem_cons_of_mem _ (List.mem_cons_self _ _))).elim
      (fun M hM => ⟨M, hM.1, hM.2.1⟩)⟩

/-! ### Claim C10 -/

/-- C10: every document a successful merge writes contains all five
recognized fields, and a field absent from both the loaded prior state
and the payload gets its default: empty mapping, empty sequence, empty
object, 0, and the merge-time timestamp respectively. -/
theorem merged_has_all_fields (file : StateFile) (payload : JVal) (now : String)
    (M : JObj) (h : save_state file payload now = .ok M) :
    (∀ k ∈ fixedFields, (M.lookup k).isSome) ∧
    (∀ dataF exF, payload = .obj dataF → asObj (loadExisting file) = some exF →
      (dataF.lookup "attemptedQuestions" = none →
        exF.lookup "attemptedQuestions" = none →
        M.lookup "attemptedQuestions" = some (.obj [])) ∧
      (dataF.lookup "markedForReview" = none →
        exF.lookup "markedForReview" = none →
        M.lookup "markedForReview" = some (.arr [])) ∧
      (dataF.lookup "currentFilter" = none → exF.lookup "currentFilter" = none →
        M.lookup "currentFilter" = some (.obj [])) ∧
      (dataF.lookup "currentQuestionIndex" = none →
        exF.lookup "currentQuestionIndex" = none →
        M.lookup "currentQuestionIndex" = some (.num 0)) ∧
      (dataF.lookup "lastUpdated" = none → exF.lookup "lastUpdated" = none →
        M.lookup "lastUpdated" = some (.str now))) := by
  obtain ⟨dataF, exF, rfl, hload, hex, hdat, rfl⟩ :=
    save_state_ok_inv file payload now M h
  have hfix := mergedDoc_lookup_fixed exF dataF now
  constructor
  · intro k hk
    simp only [fixedFields, List.mem_cons, List.not_mem_nil, or_false] at hk
    rcases hk with rfl | rfl | rfl | rfl | rfl
    · simp [hfix.1]
    · simp [hfix.2.1]
    · simp [hfix.2.2.1]
    · simp [hfix.2.2.2.1]
    · simp [hfix.2.2.2.2]
  · rintro dataF' exF' hpd hload'
    obtain rfl : dataF' = dataF := by simpa using hpd.symm
    obtain rfl : exF' = exF := by rw [hload] at hload'; simpa using hload'.symm
    refine ⟨fun h1 h2 => ?_, fun h1 h2 => ?_, fun h1 h2 => ?_,
      fun h1 h2 => ?_, fun h1 h2 => ?_⟩
    · rw [hfix.1, attFieldOf_of_absent h1, attFieldOf_of_absent h2]; rfl
    · rw [hfix.2.1, mfrFieldOf_of_absent h1, mfrFieldOf_of_absent h2]; rfl
    · rw [hfix.2.2.1]; simp [dictGet, h1, h2]
    · rw [hfix.2.2.2.1]; simp [dictGet, h1, h2]
    · rw [hfix.2.2.2.2]; simp [dictGet, h1, h2]

theorem merged_has_all_fields_witness :
    ((mergedDoc [] [] "T").lookup "attemptedQuestions").isSome = true ∧
    ((mergedDoc [] [] "T").lookup "markedForReview").isSome = true ∧
    ((mergedDoc [] [] "T").lookup "currentFilter").isSome = true ∧
    ((mergedDoc [] [] "T").lookup "currentQuestionIndex").isSome = true ∧
    ((mergedDoc [] [] "T").lookup "lastUpdated").isSome = true ∧
    (mergedDoc [] [] "T").lookup "currentQuestionIndex" = some (.num 0) ∧
    (mergedDoc [] [] "T").lookup "lastUpdated" = some (.str "T") := by
  have h := merged_has_all_fields .missing (.obj []) "T" (mergedDoc [] [] "T") rfl
  have h2 := h.2 [] [] rfl rfl
  exact ⟨h.1 _ (by decide), h.1 _ (by decide), h.1 _ (by decide),
    h.1 _ (by decide), h.1 _ (by decide), h2.2.2.2.1 rfl rfl, h2.2.2.2.2 rfl rfl⟩

theorem asObj_pyOr_obj (l : JObj) : asObj (pyOr (.obj l) (.obj [])) = some l := by
  cases l <;> simp [pyOr, truthy, asObj]

theorem strElems_map_str (xs : List String) : strElems (xs.map .str) = some xs := by
  induction xs with
  | nil => simp [strElems]
  | cons x t ih => simp [strElems, ih]

theorem asIdArray_pyOr_strArr (xs : List String) :
    asIdArray (pyOr (.arr (xs.map .str)) (.arr [])) = some xs := by
  cases xs with
  | nil => simp [pyOr, truthy, asIdArray, strElems]
  | cons x t => simp [pyOr, truthy, asIdArray, strElems, strElems_map_str]

theorem attFieldOf_lookup_some {f l : JObj}
    (h : f.lookup "attemptedQuestions" = some (.obj l)) : attFieldOf f = l := by
  simp [attFieldOf, dictGet, h, asObj_pyOr_obj]

theorem mfrFieldOf_lookup_strArr {f : JObj} {xs : List String}
    (h : f.lookup "markedForReview" = some (.arr (xs.map .str))) :
    mfrFieldOf f = xs := by
  simp [mfrFieldOf, dictGet, h, asIdArray_pyOr_strArr]

theorem sortedSet_congr {l1 l2 : List String} (h : ∀ x, x ∈ l1 ↔ x ∈ l2) :
    sortedSet l1 = sortedSet l2 := by
  refine List.eq_of_perm_of_sorted ?_ (sorted_sortedSet l1) (sorted_sortedSet l2)
  refine List.perm_of_nodup_nodup_toFinset_eq (nodup_sortedSet l1) (nodup_sortedSet l2) ?_
  ext x
  simp [List.mem_toFinset, mem_sortedSet, h x]

theorem dictGet_idem (D : JObj) (k : String) (x : JVal) :
    dictGet D k (dictGet D k x) = dictGet D k x := by
  cases h : D.lookup k <;> simp [dictGet, h]

theorem dictUpdate_absorb (B U : JObj) (hU : (U.map Prod.fst).Nodup) :
    dictUpdate (dictUpdate B U) U = dictUpdate B U := by
  unfold dictUpdate
  have h1 : (U.filter (fun e =>
      ((B.map (fun e => (e.1, (U.lookup e.1).getD e.2))
        ++ U.filter (fun e => (B.lookup e.1).isNone)).lookup e.1).isNone)) = [] := by
    rw [List.filter_eq_nil_iff]
    intro e he
    have hm2 : (e.1, e.2) ∈ U := by rw [Prod.mk.eta]; exact he
    have : (U.lookup e.1).isSome := lookup_isSome_of_mem hm2
    rw [lookup_append]
    cases hu : U.lookup e.1 with
    | none => rw [hu] at this; simp at this
    | some v =>
        rw [lookup_filter_key (fun k => (B.lookup k).isNone)]
        cases hb : B.lookup e.1 <;>
          simp [lookup_map_value (fun k v => (U.lookup k).getD v), hb, hu]
  rw [h1, List.append_nil, List.map_append, List.map_map]
  congr 1
  · apply List.map_congr_left
    intro e _
    cases hu : U.lookup e.1 <;> simp [Function.comp, hu]
  · have : ∀ e ∈ U.filter (fun e => (B.lookup e.1).isNone),
        (e.1, (U.lookup e.1).getD e.2) = e := by
      intro e he
      have hm : e ∈ U := List.mem_of_mem_filter he
      have hm2 : (e.1, e.2) ∈ U := by rw [Prod.mk.eta]; exact hm
      rw [lookup_eq_of_mem_nodup hU hm2]
      simp
    calc (U.filter (fun e => (B.lookup e.1).isNone)).map
          (fun e => (e.1, (U.lookup e.1).getD e.2))
        = (U.filter (fun e => (B.lookup e.1).isNone)).map id :=
          List.map_congr_left this
      _ = _ := List.map_id _

/-- C7: `mergeAndPersist` is idempotent — merging the same payload `X`
twice in a row, the second call (whose prior state is the first call's
written document) writes a document identical to the first call's,
with no duplicated `attemptedQuestions` keys and `markedForReview` still
deduplicated. `hU` records that `X` came from parsed JSON, whose mappings
have pairwise distinct keys. -/
theorem merge_idempotent (file : StateFile) (dataF : JObj) (now1 now2 : String) (M1 : JObj)
    (hU : ((attFieldOf dataF).map Prod.fst).Nodup)
    (h1 : save_state file (.obj dataF) now1 = .ok M1) :
    save_state (.parsed (.obj M1)) (.obj dataF) now2 = .ok M1 := by
  obtain ⟨dataF2, exF, hpd, hload, hex, hdat, rfl⟩ := save_state_ok_inv _ _ _ _ h1
  obtain rfl : dataF = dataF2 := (JVal.obj.injEq _ _).mp hpd
  have hfix := mergedDoc_lookup_fixed exF dataF now1
  have hA1 : attFieldOf (mergedDoc exF dataF now1) =
      dictUpdate (attFieldOf exF) (attFieldOf dataF) :=
    attFieldOf_lookup_some hfix.1
  have hS1 : mfrFieldOf (mergedDoc exF dataF now1) =
      sortedSet (mfrFieldOf exF ++ mfrFieldOf dataF) :=
    mfrFieldOf_lookup_strArr hfix.2.1
  have hwtM : wellTypedState (mergedDoc exF dataF now1) = true := by
    unfold wellTypedState
    rw [Bool.and_eq_true]
    constructor
    · have hd : dictGet (mergedDoc exF dataF now1) "attemptedQuestions" (.obj []) =
          .obj (dictUpdate (attFieldOf exF) (attFieldOf dataF)) := by
        simp [dictGet, hfix.1]
      rw [hd, asObj_pyOr_obj]
      rfl
    · have hd : dictGet (mergedDoc exF dataF now1) "markedForReview" (.arr []) =
          .arr ((sortedSet (mfrFieldOf exF ++ mfrFieldOf dataF)).map .str) := by
        simp [dictGet, hfix.2.1]
      rw [hd, asIdArray_pyOr_strArr]
      rfl
  rw [save_state_eq_merged (.parsed (.obj (mergedDoc exF dataF now1))) dataF
    (mergedDoc exF dataF now1) now2
    (asObj_loadExisting_obj (mergedDoc exF dataF now1)) hwtM hdat]
  congr 1
  -- mergedDoc M1 dataF now2 = mergedDoc exF dataF now1
  have hHead : mergedHead (mergedDoc exF dataF now1) dataF now2 =
      mergedHead exF dataF now1 := by
    have e3 : dictGet (mergedDoc exF dataF now1) "currentFilter" (.obj []) =
        dictGet dataF "currentFilter" (dictGet exF "currentFilter" (.obj [])) := by
      simp [dictGet, hfix.2.2.1]
    have e4 : dictGet (mergedDoc exF dataF now1) "currentQuestionIndex" (.num 0) =
        dictGet dataF "currentQuestionIndex"
          (dictGet exF "currentQuestionIndex" (.num 0)) := by
      simp [dictGet, hfix.2.2.2.1]
    have e5 : dictGet (mergedDoc exF dataF now1) "lastUpdated" (.str now2) =
        dictGet dataF "lastUpdated" (dictGet exF "lastUpdated" (.str now1)) := by
      simp [dictGet, hfix.2.2.2.2]
    have e2 : sortedSet (sortedSet (mfrFieldOf exF ++ mfrFieldOf dataF) ++ mfrFieldOf dataF) =
        sortedSet (mfrFieldOf exF ++ mfrFieldOf dataF) := by
      apply sortedSet_congr
      intro x
      simp only [List.mem_append, mem_sortedSet]
      tauto
    unfold mergedHead
    rw [hA1, dictUpdate_absorb _ _ hU, hS1, e2, e3, e4, e5, dictGet_idem, dictGet_idem,
      dictGet_idem]
  have hDocEq : ∀ (a b : JObj) (n : String), mergedDoc a b n =
      mergedHead a b n ++ a.filter (fun e => ((mergedHead a b n).lookup e.1).isNone) :=
    fun _ _ _ => rfl
  rw [hDocEq (mergedDoc exF dataF now1) dataF now2, hHead,
    hDocEq exF dataF now1]
  congr 1
  -- filter over M1 equals the original leftover list
  rw [List.filter_append]
  have hnil : (mergedHead exF dataF now1).filter
      (fun e => ((mergedHead exF dataF now1).lookup e.1).isNone) = [] := by
    rw [List.filter_eq_nil_iff]
    intro e he
    have hm2 : (e.1, e.2) ∈ mergedHead exF dataF now1 := by rw [Prod.mk.eta]; exact he
    have := lookup_isSome_of_mem hm2
    simp only [Option.isNone_eq_false_iff] at this ⊢
    simpa using this
  rw [hnil, List.nil_append, List.filter_filter]
  simp

/-- An idempotence example payload: one attempt, one review mark, one
pass-through field. -/
def c7Data : JObj :=
  [("attemptedQuestions", .obj [("a", .num 1)]),
   ("markedForReview", .arr [.str "x"]), ("note", .str "n")]

theorem merge_idempotent_witness :
    save_state (.parsed (.obj (mergedDoc [] c7Data "T1"))) (.obj c7Data) "T2" =
      .ok (mergedDoc [] c7Data "T1") :=
  merge_idempotent .missing c7Data "T1" "T2" (mergedDoc [] c7Data "T1")
    (by decide) rfl

/-! ### Claim C1 -/

theorem flatMap_congr {α β : Type} {l : List α} {f g : α → List β}
    (h : ∀ a ∈ l, f a = g a) : l.flatMap f = l.flatMap g := by
  induction l with
  | nil => rfl
  | cons a t ih =>
      simp only [List.flatMap_cons]
      rw [h a (List.mem_cons_self a t), ih (fun a ha => h a (List.mem_cons_of_mem _ ha))]

/-- The specification's description of the unfiltered traversal: every
record of every chapter file, tagged with its subject, division, chapter
and zero-based index, in sorted-subject / sorted-division /
sorted-chapter / file order. -/
def allRecordsOrdered (root : ContentRoot) :
    List (String × String × String × Nat × JObj) :=
  (sortDir root).flatMap (fun se =>
    (sortDir se.2).flatMap (fun de =>
      (jsonFiles de.2).flatMap (fun ce =>
        (load_questions_from_file ce.2).enum.map
          (fun iq => (se.1, de.1, ce.1, iq.1, iq.2)))))

/-- The specification's description of the unfiltered aggregate: exactly
the records with truthy `content`, each enriched with composite id and
source block, in traversal order. -/
def specAggregate (root : ContentRoot) : List JObj :=
  ((allRecordsOrdered root).filter (fun t => hasContent t.2.2.2.2)).map
    (fun t => question_with_meta t.1 t.2.1 t.2.2.1 t.2.2.2.1 t.2.2.2.2)

theorem chapterRecords_eq_filter_map (s d c : String) (l : List (Nat × JObj)) :
    ((l.map (fun iq => (s, d, c, iq.1, iq.2))).filter
        (fun t => hasContent t.2.2.2.2)).map
      (fun t => question_with_meta t.1 t.2.1 t.2.2.1 t.2.2.2.1 t.2.2.2.2) =
    l.filterMap (fun iq =>
      if hasContent iq.2 then some (question_with_meta s d c iq.1 iq.2) else none) := by
  induction l with
  | nil => rfl
  | cons iq t ih =>
      by_cases h : hasContent iq.2 <;>
        simp [List.filter_cons, List.filterMap_cons, h, ih]

/-- C1: `aggregate()` with no filters returns exactly the records whose
`content` field is truthy, each enriched with composite identifier and
source block, in sorted-subject / sorted-division / sorted-chapter /
file-order sequence (the equality to `specAggregate`, which is defined
by filtering the full ordered traversal). -/
theorem aggregate_unfiltered_spec (root : ContentRoot) :
    get_all_questions_with_filters root none none none = specAggregate root := by
  unfold get_all_questions_with_filters specAggregate allRecordsOrdered
  simp only [passesFilter, if_true]
  rw [List.filter_flatMap, List.map_flatMap]
  refine flatMap_congr (fun se _ => ?_)
  rw [List.filter_flatMap, List.map_flatMap]
  refine flatMap_congr (fun de _ => ?_)
  rw [List.filter_flatMap, List.map_flatMap]
  refine flatMap_congr (fun ce _ => ?_)
  exact (chapterRecords_eq_filter_map se.1 de.1 ce.1 _).symm

/-! ### Claim C9 -/

/-- The `source.subject` of an enriched record. -/
def srcSubject (q : JObj) : Option String :=
  match q.lookup "source" with
  | some (.obj src) =>
      match src.lookup "subject" with
      | some (.str s) => some s
      | _ => none
  | _ => none

theorem srcSubject_meta (s d c : String) (i : Nat) (q : JObj) :
    srcSubject (question_with_meta s d c i q) = some s := by
  unfold srcSubject question_with_meta
  rw [lookup_dictUpdate]
  simp [lookup_cons, sourceObj]

theorem srcSubject_of_mem_block {se : String × Dir (Dir ChapterData)} {q : JObj}
    (h : q ∈ (sortDir se.2).flatMap (fun de =>
      (jsonFiles de.2).flatMap (fun ce =>
        chapterRecords se.1 de.1 ce.1 (load_questions_from_file ce.2)))) :
    srcSubject q = some se.1 := by
  rw [List.mem_flatMap] at h
  obtain ⟨de, _, h⟩ := h
  rw [List.mem_flatMap] at h
  obtain ⟨ce, _, h⟩ := h
  unfold chapterRecords at h
  rw [List.mem_filterMap] at h
  obtain ⟨iq, _, h⟩ := h
  by_cases hc : hasContent iq.2
  · rw [if_pos hc] at h
    obtain rfl := (Option.some.injEq _ _).mp h
    exact srcSubject_meta _ _ _ _ _
  · rw [if_neg hc] at h
    exact absurd h (by simp)

/-- C9, counterexample: the subject filter `""` is falsy in Python, so
`aggregate(subject="")` does no filtering at all and returns the whole
collection, while filtering the unfiltered result by
`source.subject == ""` keeps nothing: the two sides differ on a
one-record hierarchy. -/
theorem aggregate_subject_filter_empty_cex :
    (get_all_questions_with_filters demoRoot (some "") none none).length = 1 ∧
    ((get_all_questions_with_filters demoRoot none none none).filter
      (fun q => srcSubject q == some "")).length = 0 := by
  constructor <;> rfl

/-- C9 (amended): for every non-empty subject filter `S`,
`aggregate(subject=S)` equals the unfiltered aggregate filtered down to
the records whose `source.subject` is `S`, in the same order. (For the
empty string — a falsy filter — the subject filter is skipped entirely,
see the counterexample.) -/
theorem aggregate_subject_filter_spec (root : ContentRoot) (S : String)
    (hS : S ≠ "") :
    get_all_questions_with_filters root (some S) none none =
      (get_all_questions_with_filters root none none none).filter
        (fun q => srcSubject q == some S) := by
  unfold get_all_questions_with_filters
  have hSb : (S == "") = false := beq_false_of_ne hS
  simp only [passesFilter, hSb, Bool.false_or, if_true]
  rw [List.filter_flatMap]
  refine flatMap_congr (fun se _ => ?_)
  split_ifs with hcond
  · rw [List.filter_eq_self.mpr]
    intro q hq
    rw [srcSubject_of_mem_block hq]
    have hs : se.1 = S := by simpa using hcond
    simp [hs]
  · rw [List.filter_eq_nil_iff.mpr]
    intro q hq
    rw [srcSubject_of_mem_block hq]
    have hs : ¬ se.1 = S := by simpa using hcond
    simpa using hs

theorem aggregate_subject_filter_spec_witness :
    ("s" : String) ≠ "" ∧
    get_all_questions_with_filters demoRoot (some "s") none none =
      (get_all_questions_with_filters demoRoot none none none).filter
        (fun q => srcSubject q == some "s") :=
  ⟨by decide, aggregate_subject_filter_spec demoRoot "s" (by decide)⟩

def DirF2 {α β : Type} (r : α → β → Prop) (l1 : Dir α) (l2 : Dir β) : Prop :=
  List.Forall₂ (fun a b => a.1 = b.1 ∧ r a.2 b.2) l1 l2

theorem forall2_flatMap_eq {α β γ : Type} {R : α → β → Prop} {l1 : List α}
    {l2 : List β} {f : α → List γ} {g : β → List γ} (h : List.Forall₂ R l1 l2)
    (hfg : ∀ a b, R a b → f a = g b) : l1.flatMap f = l2.flatMap g := by
  induction h with
  | nil => rfl
  | cons hab _ ih => simp only [List.flatMap_cons, hfg _ _ hab, ih]

theorem DirF2_orderedInsert {α β : Type} {r : α → β → Prop}
    {a : String × α} {b : String × β} {l1 : Dir α} {l2 : Dir β}
    (hab : a.1 = b.1 ∧ r a.2 b.2) (h : DirF2 r l1 l2) :
    DirF2 r (l1.orderedInsert keyLE a) (l2.orderedInsert keyLE b) := by
  induction h with
  | nil => exact List.Forall₂.cons hab List.Forall₂.nil
  | @cons x y t1 t2 hxy ht ih =>
      by_cases hc : keyLE a x
      · have hc' : keyLE b y := by
          unfold keyLE at hc ⊢
          rw [← hab.1, ← hxy.1]
          exact hc
        simp only [List.orderedInsert, if_pos hc, if_pos hc']
        exact List.Forall₂.cons hab (List.Forall₂.cons hxy ht)
      · have hc' : ¬ keyLE b y := by
          unfold keyLE at hc ⊢
          rw [← hab.1, ← hxy.1]
          exact hc
        simp only [List.orderedInsert, if_neg hc, if_neg hc']
        exact List.Forall₂.cons hxy ih

theorem DirF2_sortDir {α β : Type} {r : α → β → Prop} {l1 : Dir α} {l2 : Dir β}
    (h : DirF2 r l1 l2) : DirF2 r (sortDir l1) (sortDir l2) := by
  induction h with
  | nil => exact List.Forall₂.nil
  | cons hab _ ih => exact DirF2_orderedInsert hab ih

theorem DirF2_filter_name {α β : Type} {r : α → β → Prop} {l1 : Dir α}
    {l2 : Dir β} (p : String → Bool) (h : DirF2 r l1 l2) :
    DirF2 r (l1.filter (fun e => p e.1)) (l2.filter (fun e => p e.1)) := by
  induction h with
  | nil => exact List.Forall₂.nil
  | @cons a b t1 t2 hab ht ih =>
      by_cases hp : p a.1
      · have hp' : p b.1 := hab.1 ▸ hp
        simp only [List.filter_cons, hp, hp', if_pos]
        exact List.Forall₂.cons hab ih
      · have hp' : ¬ p b.1 = true := fun hh => hp (hab.1 ▸ hh)
        simp only [List.filter_cons, if_neg hp, if_neg hp']
        exact ih

/-- Contents of two chapter files that load to the same record list. -/
def loadEq (c1 c2 : ChapterData) : Prop :=
  load_questions_from_file c1 = load_questions_from_file c2

/-- Divisions whose sorted chapter listings agree entry-by-entry up to
`loadEq`. -/
def ChapRel (chs1 chs2 : Dir ChapterData) : Prop :=
  DirF2 loadEq (jsonFiles chs1) (jsonFiles chs2)

/-- Subjects whose sorted division listings agree entry-by-entry up to
`ChapRel`. -/
def SubjRel (d1 d2 : Dir (Dir ChapterData)) : Prop :=
  DirF2 ChapRel (sortDir d1) (sortDir d2)

/-- The aggregation engine only looks at sorted name listings and loaded
record lists: roots related accordingly aggregate identically, whatever
the filters. -/
theorem aggregate_core {root1 root2 : ContentRoot}
    (h : DirF2 SubjRel (sortDir root1) (sortDir root2))
    (f1 f2 f3 : Option String) :
    get_all_questions_with_filters root1 f1 f2 f3 =
      get_all_questions_with_filters root2 f1 f2 f3 := by
  unfold get_all_questions_with_filters
  refine forall2_flatMap_eq h ?_
  rintro se1 se2 ⟨hn, hrel⟩
  rw [hn]
  by_cases hp : passesFilter f1 se2.1
  · rw [if_pos hp, if_pos hp]
    refine forall2_flatMap_eq hrel ?_
    rintro de1 de2 ⟨hdn, hdrel⟩
    rw [hdn]
    by_cases hq : passesFilter f2 de2.1
    · rw [if_pos hq, if_pos hq]
      refine forall2_flatMap_eq hdrel ?_
      rintro ce1 ce2 ⟨hcn, hcrel⟩
      rw [hcn]
      by_cases hr : passesFilter f3 ce2.1
      · rw [if_pos hr, if_pos hr]
        unfold loadEq at hcrel
        rw [hcrel]
      · rw [if_neg hr, if_neg hr]
    · rw [if_neg hq, if_neg hq]
  · rw [if_neg hp, if_neg hp]

theorem DirF2_refl {α : Type} {r : α → α → Prop} (hr : ∀ a, r a a) (l : Dir α) :
    DirF2 r l l :=
  List.forall₂_same.mpr (fun x _ => ⟨rfl, hr x.2⟩)

theorem DirF2_mono {α β : Type} {r r' : α → β → Prop} {l1 : Dir α} {l2 : Dir β}
    (himp : ∀ a b, r a b → r' a b) (h : DirF2 r l1 l2) : DirF2 r' l1 l2 :=
  h.imp (fun _ _ hab => ⟨hab.1, himp _ _ hab.2⟩)

theorem DirF2_to_SubjRel {root1 root2 : ContentRoot}
    (h : DirF2 (DirF2 (DirF2 loadEq)) root1 root2) :
    DirF2 SubjRel (sortDir root1) (sortDir root2) := by
  refine DirF2_mono ?_ (DirF2_sortDir h)
  intro d1 d2 hd
  refine DirF2_mono ?_ (DirF2_sortDir hd)
  intro c1 c2 hc
  exact DirF2_sortDir (DirF2_filter_name (fun nm => strEndsWith nm ".json") hc)

/-- The content root with the chapter file at `subject/division/chapter`
replaced by the given content. -/
def setChapter (root : ContentRoot) (s d c : String) (cd : ChapterData) :
    ContentRoot :=
  root.map (fun se => if se.1 = s
    then (se.1, se.2.map (fun de => if de.1 = d
      then (de.1, de.2.map (fun ce => if ce.1 = c then (ce.1, cd) else ce))
      else de))
    else se)

theorem setChapter_DirF2 (root : ContentRoot) (s d c : String)
    (cd1 cd2 : ChapterData)
    (hload : load_questions_from_file cd1 = load_questions_from_file cd2) :
    DirF2 (DirF2 (DirF2 loadEq)) (setChapter root s d c cd1)
      (setChapter root s d c cd2) := by
  unfold setChapter DirF2
  rw [List.forall₂_map_left_iff, List.forall₂_map_right_iff, List.forall₂_same]
  intro se _
  by_cases hse : se.1 = s
  · rw [if_pos hse, if_pos hse]
    refine ⟨rfl, ?_⟩
    rw [List.forall₂_map_left_iff, List.forall₂_map_right_iff, List.forall₂_same]
    intro de _
    by_cases hde : de.1 = d
    · rw [if_pos hde, if_pos hde]
      refine ⟨rfl, ?_⟩
      rw [List.forall₂_map_left_iff, List.forall₂_map_right_iff, List.forall₂_same]
      intro ce _
      by_cases hce : ce.1 = c
      · rw [if_pos hce, if_pos hce]
        exact ⟨rfl, hload⟩
      · rw [if_neg hce, if_neg hce]
        exact ⟨rfl, rfl⟩
    · rw [if_neg hde, if_neg hde]
      exact ⟨rfl, DirF2_refl (r := loadEq) (fun _ => rfl) de.2⟩
  · rw [if_neg hse, if_neg hse]
    exact ⟨rfl, DirF2_refl (r := DirF2 loadEq)
      (fun l => DirF2_refl (r := loadEq) (fun _ => rfl) l) se.2⟩

/-- C5: `load_questions_from_file` returns an empty list on a read/parse
failure and on a parsed value that is not an array, and consequently a
single missing or corrupt chapter file never aborts an aggregate call:
replacing any one chapter file's content by an unreadable file changes
the aggregation exactly as if that file held the empty record list — the
remaining files' records are all still returned. -/
theorem load_degrades_and_aggregation_resilient :
    load_questions_from_file .ioError = [] ∧
    (∀ v, load_questions_from_file (.notArray v) = []) ∧
    (∀ root s d c f1 f2 f3,
      get_all_questions_with_filters (setChapter root s d c .ioError) f1 f2 f3 =
        get_all_questions_with_filters (setChapter root s d c (.records []))
          f1 f2 f3) := by
  refine ⟨rfl, fun _ => rfl, fun root s d c f1 f2 f3 => ?_⟩
  exact aggregate_core
    (DirF2_to_SubjRel (setChapter_DirF2 root s d c .ioError (.records []) rfl))
    f1 f2 f3

theorem sep_split {sep : Char} : ∀ {l1 r1 l2 r2 : List Char},
    l1 ++ sep :: r1 = l2 ++ sep :: r2 → sep ∉ l1 → sep ∉ l2 →
    l1 = l2 ∧ r1 = r2 := by
  intro l1
  induction l1 with
  | nil =>
      intro r1 l2 r2 h _ h2
      cases l2 with
      | nil => simpa using h
      | cons x t =>
          rw [List.nil_append, List.cons_append, List.cons.injEq] at h
          exact absurd (h.1 ▸ List.mem_cons_self x t) h2
  | cons x t ih =>
      intro r1 l2 r2 h h1 h2
      cases l2 with
      | nil =>
          rw [List.nil_append, List.cons_append, List.cons.injEq] at h
          exact absurd (h.1.symm ▸ List.mem_cons_self x t) h1
      | cons y t2 =>
          rw [List.cons_append, List.cons_append, List.cons.injEq] at h
          obtain ⟨rfl, h⟩ := h
          have := ih h (fun hm => h1 (List.mem_cons_of_mem _ hm))
            (fun hm => h2 (List.mem_cons_of_mem _ hm))
          exact ⟨by rw [this.1], this.2⟩

theorem sep_split_rev {sep : Char} {l1 r1 l2 r2 : List Char}
    (h : l1 ++ sep :: r1 = l2 ++ sep :: r2) (h1 : sep ∉ r1) (h2 : sep ∉ r2) :
    l1 = l2 ∧ r1 = r2 := by
  have hrev := congrArg List.reverse h
  rw [List.reverse_append, List.reverse_append, List.reverse_cons,
    List.reverse_cons, List.append_assoc, List.append_assoc,
    List.singleton_append, List.singleton_append] at hrev
  have := sep_split hrev (by simpa using h1) (by simpa using h2)
  exact ⟨List.reverse_injective this.2, List.reverse_injective this.1⟩

theorem digitChar_mem {n : Nat} (h : n < 10) :
    Nat.digitChar n ∈ ['0', '1', '2', '3', '4', '5', '6', '7', '8', '9'] := by
  interval_cases n <;> decide

theorem natCharsAux_digits : ∀ (fuel n : Nat), ∀ c ∈ natCharsAux fuel n,
    c ∈ ['0', '1', '2', '3', '4', '5', '6', '7', '8', '9'] := by
  intro fuel
  induction fuel with
  | zero => intro n c hc; simp [natCharsAux] at hc
  | succ fuel ih =>
      intro n c hc
      unfold natCharsAux at hc
      by_cases h : n < 10
      · rw [if_pos h] at hc
        obtain rfl : c = Nat.digitChar n := by simpa using hc
        exact digitChar_mem h
      · rw [if_neg h] at hc
        rcases List.mem_append.mp hc with hm | hm
        · exact ih _ c hm
        · obtain rfl : c = Nat.digitChar (n % 10) := by simpa using hm
          exact digitChar_mem (Nat.mod_lt _ (by omega))

theorem digit_ne_colon {c : Char}
    (h : c ∈ ['0', '1', '2', '3', '4', '5', '6', '7', '8', '9']) : c ≠ ':' := by
  fin_cases h <;> decide

theorem digit_ne_slash {c : Char}
    (h : c ∈ ['0', '1', '2', '3', '4', '5', '6', '7', '8', '9']) : c ≠ '/' := by
  fin_cases h <;> decide

def decodeDigits (l : List Char) : Nat :=
  l.foldl (fun acc c => 10 * acc + (c.toNat - 48)) 0

theorem decodeDigits_append_general (l : List Char) (c : Char) :
    ∀ b : Nat, List.foldl (fun acc c => 10 * acc + (c.toNat - 48)) b (l ++ [c]) =
      10 * List.foldl (fun acc c => 10 * acc + (c.toNat - 48)) b l + (c.toNat - 48) := by
  intro b
  rw [List.foldl_append]
  rfl

theorem digitChar_toNat {n : Nat} (h : n < 10) :
    (Nat.digitChar n).toNat = n + 48 := by
  interval_cases n <;> decide

theorem decode_natCharsAux : ∀ (fuel n : Nat), n < 10 ^ fuel →
    decodeDigits (natCharsAux fuel n) = n := by
  intro fuel
  induction fuel with
  | zero =>
      intro n h
      interval_cases n
      rfl
  | succ fuel ih =>
      intro n h
      unfold natCharsAux
      by_cases h10 : n < 10
      · rw [if_pos h10]
        show 10 * 0 + ((Nat.digitChar n).toNat - 48) = n
        rw [digitChar_toNat h10]
        omega
      · rw [if_neg h10]
        unfold decodeDigits
        rw [decodeDigits_append_general]
        have hdiv : n / 10 < 10 ^ fuel := by
          rw [Nat.div_lt_iff_lt_mul (by omega)]
          calc n < 10 ^ (fuel + 1) := h
            _ = 10 ^ fuel * 10 := by ring
        rw [show List.foldl (fun acc c => 10 * acc + (c.toNat - 48)) 0
              (natCharsAux fuel (n / 10)) = decodeDigits (natCharsAux fuel (n / 10))
            from rfl,
          ih _ hdiv, digitChar_toNat (Nat.mod_lt _ (by omega))]
        omega

theorem natToString_inj {m n : Nat} (h : natToString m = natToString n) : m = n := by
  have hd : natCharsAux (m + 1) m = natCharsAux (n + 1) n :=
    congrArg String.data h
  have hm : m < 10 ^ (m + 1) :=
    lt_of_lt_of_le (Nat.lt_pow_self (by omega) m)
      (Nat.pow_le_pow_right (by omega) (by omega))
  have hn : n < 10 ^ (n + 1) :=
    lt_of_lt_of_le (Nat.lt_pow_self (by omega) n)
      (Nat.pow_le_pow_right (by omega) (by omega))
  rw [← decode_natCharsAux (m + 1) m hm, ← decode_natCharsAux (n + 1) n hn, hd]

theorem compositeId_data (s d c : String) (i : Nat) :
    (compositeId s d c i).data =
      s.data ++ '/' :: (d.data ++ '/' :: (c.data ++ ':' :: natCharsAux (i + 1) i)) := by
  simp [compositeId, String.data_append, natToString]

theorem compositeId_inj {s d c s' d' c' : String} {i i' : Nat}
    (hs : '/' ∉ s.data) (hd : '/' ∉ d.data)
    (hs' : '/' ∉ s'.data) (hd' : '/' ∉ d'.data)
    (h : compositeId s d c i = compositeId s' d' c' i') :
    s = s' ∧ d = d' ∧ c = c' ∧ i = i' := by
  have hdata := congrArg String.data h
  rw [compositeId_data, compositeId_data] at hdata
  obtain ⟨hseq, hrest⟩ := sep_split hdata hs hs'
  obtain ⟨hdeq, hrest2⟩ := sep_split hrest hd hd'
  obtain ⟨hceq, hieq⟩ := sep_split_rev hrest2
    (fun hm => digit_ne_colon (natCharsAux_digits _ _ _ hm) rfl)
    (fun hm => digit_ne_colon (natCharsAux_digits _ _ _ hm) rfl)
  refine ⟨String.ext hseq, String.ext hdeq, String.ext hceq, ?_⟩
  have hstr : natToString i = natToString i' := String.ext hieq
  exact natToString_inj hstr

/-- The composite identifier carried by an enriched record. -/
def idOf (q : JObj) : String :=
  match q.lookup "id" with
  | some (.str s) => s
  | _ => ""

theorem idOf_meta (s d c : String) (i : Nat) (q : JObj) :
    idOf (question_with_meta s d c i q) = compositeId s d c i := by
  unfold idOf question_with_meta
  rw [lookup_dictUpdate]
  simp [lookup_cons]

/-- The identifiers of every record of one division, chapters listed as the
engine lists them. -/
def divIds (sname : String) (de : String × Dir ChapterData) : List String :=
  (jsonFiles de.2).flatMap (fun ce =>
    ((load_questions_from_file ce.2).enum).map
      (fun iq => compositeId sname de.1 ce.1 iq.1))

/-- The identifiers of every record of one subject. -/
def subjIds (se : String × Dir (Dir ChapterData)) : List String :=
  (sortDir se.2).flatMap (divIds se.1)

/-- The identifiers of every record in the hierarchy, in traversal order. -/
def allIds (root : ContentRoot) : List String :=
  (sortDir root).flatMap subjIds

/-- The directory names at every level are pairwise distinct, as they are
on a real file system. -/
@[reducible] def NodupNames (root : ContentRoot) : Prop :=
  (root.map Prod.fst).Nodup ∧ ∀ se ∈ root, (se.2.map Prod.fst).Nodup ∧
    ∀ de ∈ se.2, (de.2.map Prod.fst).Nodup

/-- Subject and division names contain no `/`, as path components on a real
file system cannot. -/
@[reducible] def NoSlashNames (root : ContentRoot) : Prop :=
  ∀ se ∈ root, '/' ∉ se.1.data ∧ ∀ de ∈ se.2, '/' ∉ de.1.data

theorem flatMap_sublist {α β : Type} {l : List α} {f g : α → List β}
    (h : ∀ a ∈ l, (f a).Sublist (g a)) : (l.flatMap f).Sublist (l.flatMap g) := by
  induction l with
  | nil => exact List.Sublist.refl _
  | cons a t ih =>
      simp only [List.flatMap_cons]
      exact (h a (List.mem_cons_self a t)).append
        (ih (fun a ha => h a (List.mem_cons_of_mem _ ha)))

theorem chapterIds_sublist (s d c : String) (l : List (Nat × JObj)) :
    ((l.filterMap (fun iq => if hasContent iq.2
        then some (question_with_meta s d c iq.1 iq.2) else none)).map idOf).Sublist
      (l.map (fun iq => compositeId s d c iq.1)) := by
  induction l with
  | nil => exact List.Sublist.refl _
  | cons iq t ih =>
      rw [List.filterMap_cons]
      by_cases h : hasContent iq.2
      · rw [if_pos h]
        simp only [List.map_cons]
        rw [idOf_meta]
        exact ih.cons₂ _
      · rw [if_neg h]
        simp only [List.map_cons]
        exact ih.cons _

theorem aggregate_ids_sublist (root : ContentRoot) :
    ((get_all_questions_with_filters root none none none).map idOf).Sublist
      (allIds root) := by
  unfold get_all_questions_with_filters allIds
  simp only [passesFilter, if_true]
  rw [List.map_flatMap]
  refine flatMap_sublist (fun se _ => ?_)
  unfold subjIds
  rw [List.map_flatMap]
  refine flatMap_sublist (fun de _ => ?_)
  unfold divIds
  rw [List.map_flatMap]
  refine flatMap_sublist (fun ce _ => ?_)
  unfold chapterRecords
  exact chapterIds_sublist se.1 de.1 ce.1 _

theorem mem_divIds {sname : String} {de : String × Dir ChapterData} {x : String}
    (h : x ∈ divIds sname de) :
    ∃ ce ∈ de.2, ∃ i : Nat, x = compositeId sname de.1 ce.1 i := by
  unfold divIds at h
  rw [List.mem_flatMap] at h
  obtain ⟨ce, hce, h⟩ := h
  have hce0 : ce ∈ de.2 := by
    unfold jsonFiles sortDir at hce
    exact List.mem_of_mem_filter ((List.perm_insertionSort _ _).mem_iff.mp hce)
  rw [List.mem_map] at h
  obtain ⟨iq, _, rfl⟩ := h
  exact ⟨ce, hce0, iq.1, rfl⟩

theorem mem_subjIds {se : String × Dir (Dir ChapterData)} {x : String}
    (h : x ∈ subjIds se) :
    ∃ de ∈ se.2, ∃ ce ∈ de.2, ∃ i : Nat, x = compositeId se.1 de.1 ce.1 i := by
  unfold subjIds at h
  rw [List.mem_flatMap] at h
  obtain ⟨de, hde, h⟩ := h
  obtain ⟨ce, hce, i, rfl⟩ := mem_divIds h
  exact ⟨de, (List.perm_insertionSort _ _).mem_iff.mp hde, ce, hce, i, rfl⟩

theorem divIds_nodup {sname : String} {de : String × Dir ChapterData}
    (hnd : (de.2.map Prod.fst).Nodup) (hs : '/' ∉ sname.data)
    (hd : '/' ∉ de.1.data) : (divIds sname de).Nodup := by
  unfold divIds
  rw [List.nodup_flatMap]
  constructor
  · intro ce _
    have hfun : (fun iq : Nat × JObj => compositeId sname de.1 ce.1 iq.1) =
        ((fun i => compositeId sname de.1 ce.1 i) ∘ Prod.fst) := rfl
    rw [hfun, ← List.map_map, List.enum_map_fst]
    refine List.Nodup.map_on ?_ (List.nodup_range _)
    intro x _ y _ hxy
    exact (compositeId_inj hs hd hs hd hxy).2.2.2
  · have hjson : ((jsonFiles de.2).map Prod.fst).Nodup := by
      have h1 : ((de.2.filter (fun e => strEndsWith e.1 ".json")).map Prod.fst).Nodup :=
        List.Nodup.sublist (List.Sublist.map Prod.fst (List.filter_sublist de.2)) hnd
      unfold jsonFiles sortDir
      exact (((List.perm_insertionSort keyLE _).map Prod.fst).nodup_iff).mpr h1
    refine (List.pairwise_map.mp hjson).imp ?_
    intro ce1 ce2 hne x hx1 hx2
    rw [List.mem_map] at hx1 hx2
    obtain ⟨iq1, _, rfl⟩ := hx1
    obtain ⟨iq2, _, heq⟩ := hx2
    exact hne (compositeId_inj hs hd hs hd heq.symm).2.2.1

theorem subjIds_nodup {se : String × Dir (Dir ChapterData)}
    (hnd2 : (se.2.map Prod.fst).Nodup)
    (hnd3 : ∀ de ∈ se.2, (de.2.map Prod.fst).Nodup)
    (hs : '/' ∉ se.1.data) (hd : ∀ de ∈ se.2, '/' ∉ de.1.data) :
    (subjIds se).Nodup := by
  unfold subjIds
  rw [List.nodup_flatMap]
  constructor
  · intro de hde
    have hde0 : de ∈ se.2 := (List.perm_insertionSort _ _).mem_iff.mp hde
    exact divIds_nodup (hnd3 de hde0) hs (hd de hde0)
  · have hsorted : ((sortDir se.2).map Prod.fst).Nodup :=
      (((List.perm_insertionSort keyLE _).map Prod.fst).nodup_iff).mpr hnd2
    refine (List.pairwise_map.mp hsorted).imp_of_mem ?_
    intro de1 de2 hm1 hm2 hne x hx1 hx2
    obtain ⟨ce1, hce1, i1, rfl⟩ := mem_divIds hx1
    obtain ⟨ce2, hce2, i2, heq⟩ := mem_divIds hx2
    have hd1 : '/' ∉ de1.1.data := hd de1 ((List.perm_insertionSort _ _).mem_iff.mp hm1)
    have hd2 : '/' ∉ de2.1.data := hd de2 ((List.perm_insertionSort _ _).mem_iff.mp hm2)
    exact hne (compositeId_inj hs hd1 hs hd2 heq).2.1

theorem allIds_nodup (root : ContentRoot) (hnd : NodupNames root)
    (hns : NoSlashNames root) : (allIds root).Nodup := by
  unfold allIds
  rw [List.nodup_flatMap]
  constructor
  · intro se hse
    have hse0 : se ∈ root := (List.perm_insertionSort _ _).mem_iff.mp hse
    exact subjIds_nodup (hnd.2 se hse0).1 (hnd.2 se hse0).2 (hns se hse0).1
      (hns se hse0).2
  · have hsorted : ((sortDir root).map Prod.fst).Nodup :=
      (((List.perm_insertionSort keyLE _).map Prod.fst).nodup_iff).mpr hnd.1
    refine (List.pairwise_map.mp hsorted).imp_of_mem ?_
    intro se1 se2 hm1 hm2 hne x hx1 hx2
    obtain ⟨de1, hde1, ce1, hce1, i1, rfl⟩ := mem_subjIds hx1
    obtain ⟨de2, hde2, ce2, hce2, i2, heq⟩ := mem_subjIds hx2
    have hse1 : se1 ∈ root := (List.perm_insertionSort _ _).mem_iff.mp hm1
    have hse2 : se2 ∈ root := (List.perm_insertionSort _ _).mem_iff.mp hm2
    exact hne (compositeId_inj (hns se1 hse1).1 ((hns se1 hse1).2 de1 hde1)
      (hns se2 hse2).1 ((hns se2 hse2).2 de2 hde2) heq).1

theorem aggregate_ids_nodup (root : ContentRoot) (hnd : NodupNames root)
    (hns : NoSlashNames root) :
    ((get_all_questions_with_filters root none none none).map idOf).Nodup :=
  List.Nodup.sublist (aggregate_ids_sublist root) (allIds_nodup root hnd hns)

/-- Two directories hold the same entries up to listing order: the same
name multiset, and entries of equal name have `r`-related contents. -/
def DirSame {α β : Type} (r : α → β → Prop) (l1 : Dir α) (l2 : Dir β) : Prop :=
  (l1.map Prod.fst).Perm (l2.map Prod.fst) ∧
  ∀ e1 ∈ l1, ∀ e2 ∈ l2, e1.1 = e2.1 → r e1.2 e2.2

/-- Two content roots with identical directory contents at every level, the
on-disk listing order alone possibly differing. -/
def RootSame (root1 root2 : ContentRoot) : Prop :=
  DirSame (DirSame (DirSame Eq)) root1 root2

theorem sorted_names_sortDir {α : Type} (l : Dir α) :
    List.Pairwise (fun a b : String => strLe a b = true)
      ((sortDir l).map Prod.fst) := by
  haveI : IsTotal (String × α) keyLE := ⟨keyLE_total⟩
  haveI : IsTrans (String × α) keyLE := ⟨fun _ _ _ => keyLE_trans⟩
  exact List.Pairwise.map Prod.fst (fun a b hab => hab)
    (List.sorted_insertionSort keyLE l)

theorem sortDir_names_eq {α β : Type} {l1 : Dir α} {l2 : Dir β}
    (hperm : (l1.map Prod.fst).Perm (l2.map Prod.fst)) :
    (sortDir l1).map Prod.fst = (sortDir l2).map Prod.fst := by
  haveI : IsAntisymm String (fun a b => strLe a b = true) :=
    ⟨fun a b ha hb => le_antisymm ((strLe_iff_le _ _).mp ha) ((strLe_iff_le _ _).mp hb)⟩
  refine List.eq_of_perm_of_sorted ?_ (sorted_names_sortDir l1) (sorted_names_sortDir l2)
  exact ((List.perm_insertionSort keyLE l1).map Prod.fst).trans
    (hperm.trans (((List.perm_insertionSort keyLE l2).map Prod.fst).symm))

theorem DirF2_of_names_eq {α β : Type} {r : α → β → Prop} : ∀ {l1 : Dir α} {l2 : Dir β},
    l1.map Prod.fst = l2.map Prod.fst →
    (∀ e1 ∈ l1, ∀ e2 ∈ l2, e1.1 = e2.1 → r e1.2 e2.2) → DirF2 r l1 l2 := by
  intro l1
  induction l1 with
  | nil =>
      intro l2 h _
      obtain rfl : l2 = [] := by simpa using h.symm
      exact List.Forall₂.nil
  | cons a t ih =>
      intro l2 h hcross
      cases l2 with
      | nil => simp at h
      | cons b t2 =>
          simp only [List.map_cons, List.cons.injEq] at h
          refine List.Forall₂.cons
            ⟨h.1, hcross a (List.mem_cons_self _ _) b (List.mem_cons_self _ _) h.1⟩
            (ih h.2 (fun e1 he1 e2 he2 =>
              hcross e1 (List.mem_cons_of_mem _ he1) e2 (List.mem_cons_of_mem _ he2)))

theorem DirSame_sortDir {α β : Type} {r : α → β → Prop} {l1 : Dir α} {l2 : Dir β}
    (h : DirSame r l1 l2) : DirF2 r (sortDir l1) (sortDir l2) := by
  refine DirF2_of_names_eq (sortDir_names_eq h.1) ?_
  intro e1 he1 e2 he2 hname
  exact h.2 e1 ((List.perm_insertionSort _ _).mem_iff.mp he1)
    e2 ((List.perm_insertionSort _ _).mem_iff.mp he2) hname

theorem map_fst_filter_name {α : Type} (p : String → Bool) (l : Dir α) :
    (l.filter (fun e => p e.1)).map Prod.fst = (l.map Prod.fst).filter p := by
  induction l with
  | nil => rfl
  | cons a t ih =>
      by_cases hp : p a.1 <;> simp [List.filter_cons, hp, ih]

theorem DirSame_filter_name {α β : Type} {r : α → β → Prop} {l1 : Dir α}
    {l2 : Dir β} (p : String → Bool) (h : DirSame r l1 l2) :
    DirSame r (l1.filter (fun e => p e.1)) (l2.filter (fun e => p e.1)) := by
  constructor
  · rw [map_fst_filter_name, map_fst_filter_name]
    exact h.1.filter p
  · intro e1 he1 e2 he2 hname
    exact h.2 e1 (List.mem_of_mem_filter he1) e2 (List.mem_of_mem_filter he2) hname

theorem RootSame_to_SubjRel {root1 root2 : ContentRoot} (h : RootSame root1 root2) :
    DirF2 SubjRel (sortDir root1) (sortDir root2) := by
  refine DirF2_mono ?_ (DirSame_sortDir h)
  intro d1 d2 hd
  refine DirF2_mono ?_ (DirSame_sortDir hd)
  intro c1 c2 hc
  have h2 := DirSame_sortDir (DirSame_filter_name (fun nm => strEndsWith nm ".json") hc)
  exact DirF2_mono (fun a b hab => by rw [loadEq, hab]) h2

theorem entry_eq_of_nodup_keys {α : Type} {l : Dir α}
    (h : (l.map Prod.fst).Nodup) {e1 e2 : String × α} (h1 : e1 ∈ l) (h2 : e2 ∈ l)
    (hn : e1.1 = e2.1) : e1 = e2 :=
  List.inj_on_of_nodup_map h h1 h2 hn

theorem DirSame_refl_of {α : Type} {r : α → α → Prop} {l : Dir α}
    (hn : (l.map Prod.fst).Nodup) (hr : ∀ e ∈ l, r e.2 e.2) : DirSame r l l := by
  refine ⟨List.Perm.refl _, ?_⟩
  intro e1 h1 e2 h2 hname
  obtain rfl := entry_eq_of_nodup_keys hn h1 h2 hname
  exact hr e1 h1

theorem RootSame_refl {root : ContentRoot} (hnd : NodupNames root) :
    RootSame root root :=
  DirSame_refl_of hnd.1 (fun se hse =>
    DirSame_refl_of (hnd.2 se hse).1 (fun de hde =>
      DirSame_refl_of ((hnd.2 se hse).2 de hde) (fun _ _ => rfl)))

theorem aggregate_stable {root1 root2 : ContentRoot} (h : RootSame root1 root2)
    (f1 f2 f3 : Option String) :
    get_all_questions_with_filters root1 f1 f2 f3 =
      get_all_questions_with_filters root2 f1 f2 f3 :=
  aggregate_core (RootSame_to_SubjRel h) f1 f2 f3

/-- C6: within one aggregate call the returned records' composite
identifiers are pairwise distinct (given the file-system facts that
sibling names are distinct and path components contain no `/`); the
identifier string uniquely determines `(subject, division, chapter,
index)`; and two aggregate calls over unchanged directory contents —
roots listing the same entries at every level, in any on-disk order —
return identical results, so identifiers are stable across repeated
reads. -/
theorem composite_ids_unique_and_stable :
    (∀ root, NodupNames root → NoSlashNames root →
      ((get_all_questions_with_filters root none none none).map idOf).Nodup) ∧
    (∀ (s d c s' d' c' : String) (i i' : Nat), '/' ∉ s.data → '/' ∉ d.data →
      '/' ∉ s'.data → '/' ∉ d'.data →
      compositeId s d c i = compositeId s' d' c' i' →
      s = s' ∧ d = d' ∧ c = c' ∧ i = i') ∧
    (∀ root1 root2 f1 f2 f3, RootSame root1 root2 →
      get_all_questions_with_filters root1 f1 f2 f3 =
        get_all_questions_with_filters root2 f1 f2 f3) :=
  ⟨fun root hnd hns => aggregate_ids_nodup root hnd hns,
   fun _ _ _ _ _ _ _ _ hs hd hs2 hd2 h => compositeId_inj hs hd hs2 hd2 h,
   fun _ _ f1 f2 f3 h => aggregate_stable h f1 f2 f3⟩

theorem composite_ids_unique_and_stable_witness :
    ((get_all_questions_with_filters demoRoot none none none).map idOf).Nodup ∧
    (("s" : String) = "s" ∧ ("d" : String) = "d" ∧
      ("c.json" : String) = "c.json" ∧ 1 = 1) ∧
    get_all_questions_with_filters demoRoot none none none =
      get_all_questions_with_filters demoRoot none none none := by
  refine ⟨composite_ids_unique_and_stable.1 demoRoot ?_ ?_,
    composite_ids_unique_and_stable.2.1 "s" "d" "c.json" "s" "d" "c.json" 1 1
      (by decide) (by decide) (by decide) (by decide) rfl,
    composite_ids_unique_and_stable.2.2 demoRoot demoRoot none none none
      (RootSame_refl ?_)⟩
  · decide
  · decide
  · decide
